import Mathlib

/-!
# Verification of the catalog-browsing backend

A shallow embedding of the repository's three source files:

* `src/products/providers/products/provider/product.service.ts`
  (`ProductService`: `findAll`, `softDelete`, `invalidateCache`,
  `fetchFromContentful`),
* the `AuthGuard` (`canActivate`),
* the `ReportsModule` (declarations only, nothing to verify).

Strings are modelled as `List Char`, JS numbers for prices as `Int`,
page/limit as `Nat`, timestamps as `Nat`.  Fallible operations return
`Except`.  The external collaborators (TypeORM repository, cache-manager,
Contentful HTTP API) are modelled at their boundary: the repository as a
list of rows, the cache as an association list, the Contentful items as an
input list.
-/

/-- A row of the products table (`ProductEntity`): identifier, mutable
fields, a nullable external-source identifier and a nullable soft-delete
timestamp. -/
structure ProductEntity where
  id : Nat
  name : List Char
  category : List Char
  price : Int
  contentfulId : Option (List Char)
  deletedAt : Option Nat
deriving DecidableEq, Repr

/-- The filter DTO taken by `findAll`: every field optional
(`name`, `category`, `minPrice`, `maxPrice`). -/
structure FilterProductDto where
  name : Option (List Char) := none
  category : Option (List Char) := none
  minPrice : Option Int := none
  maxPrice : Option Int := none
deriving DecidableEq, Repr

/-- The shape `findAll` returns: the page of rows, the pre-pagination match
count, the echoed page and limit, and the total number of pages. -/
structure PaginatedResult where
  data : List ProductEntity
  total : Nat
  page : Nat
  limit : Nat
  totalPages : Nat
deriving DecidableEq, Repr

/-- Case folding used to model SQL `ILIKE`. -/
def lowerStr (s : List Char) : List Char := s.map Char.toLower

/-- `pat` occurs as a contiguous substring of `s`. -/
def isSubstring (pat : List Char) : List Char → Bool
  | [] => pat.isEmpty
  | c :: t => pat.isPrefixOf (c :: t) || isSubstring pat t

/-- `product.name ILIKE :name` with `name = %pat%`: case-insensitive
substring test. -/
def nameMatches (pat s : List Char) : Bool :=
  isSubstring (lowerStr pat) (lowerStr s)

/-- The conjunction of `WHERE` clauses `findAll` builds (lines 42–58 of the
service): the name clause is added only when `name` is truthy (defined and
non-empty), likewise `category`; the price clauses are added whenever the
bound is defined (`!== undefined`), so a bound of `0` is applied. -/
def matchesFilter (f : FilterProductDto) (p : ProductEntity) : Bool :=
  (match f.name with
   | none => true
   | some n => if n.isEmpty then true else nameMatches n p.name) &&
  (match f.category with
   | none => true
   | some c => if c.isEmpty then true else p.category == c) &&
  (match f.minPrice with
   | none => true
   | some m => decide (m ≤ p.price)) &&
  (match f.maxPrice with
   | none => true
   | some m => decide (p.price ≤ m))

/-- The query `findAll` runs on a cache miss (lines 39–70): keep the
non-soft-deleted rows matching every supplied predicate, window them by
`skip ((page-1)*limit)` and `take limit`, and report the pre-pagination
match count plus `Math.ceil(total / limit)` pages.  `(total + limit - 1) /
limit` is that ceiling for `limit ≥ 1` (the validated DTO guarantees a
positive limit; `Math.ceil` of a division by zero has no `Nat` meaning). -/
def findAllQuery (db : List ProductEntity) (page limit : Nat)
    (f : FilterProductDto) : PaginatedResult :=
  let matching := db.filter (fun p => p.deletedAt.isNone && matchesFilter f p)
  { data := (matching.drop ((page - 1) * limit)).take limit
    total := matching.length
    page := page
    limit := limit
    totalPages := (matching.length + limit - 1) / limit }

/-- The two rejection reasons of the `AuthGuard`. -/
inductive AuthError where
  | missingHeader
  | invalidFormat
deriving DecidableEq, Repr

/-- The characters of the scheme token `"Bearer "` checked by
`authHeader.startsWith('Bearer ')`. -/
def bearerScheme : List Char := ['B', 'e', 'a', 'r', 'e', 'r', ' ']

/-- `AuthGuard.canActivate`: reads the `authorization` header (`none` models
an absent header); `if (!authHeader)` throws on a falsy header (absent or
the empty string), then a header not starting with `"Bearer "` throws, and
otherwise the guard returns `true`. -/
def canActivate (authHeader : Option (List Char)) : Except AuthError Bool :=
  match authHeader with
  | none => .error .missingHeader
  | some h =>
    if h.isEmpty then .error .missingHeader
    else if bearerScheme.isPrefixOf h then .ok true
    else .error .invalidFormat

/-- C7: the access gate rejects an absent `authorization` header with an
unauthorized error, rejects a header that does not start with the scheme
token `"Bearer "` (so `"Token abc"` is rejected), and passes (returns
`true`) on every header that does start with `"Bearer "` (so `"Bearer abc"`
is accepted). -/
theorem authGuard_canActivate_correct (h : List Char) :
    canActivate none = .error .missingHeader ∧
    (bearerScheme.isPrefixOf h = true → canActivate (some h) = .ok true) ∧
    (bearerScheme.isPrefixOf h = false →
      ∃ e, canActivate (some h) = .error e) ∧
    canActivate (some ['T', 'o', 'k', 'e', 'n', ' ', 'a', 'b', 'c']) =
      .error .invalidFormat ∧
    canActivate (some ['B', 'e', 'a', 'r', 'e', 'r', ' ', 'a', 'b', 'c']) =
      .ok true := by
  refine ⟨rfl, ?_, ?_, by rfl, by rfl⟩
  · intro hpre
    have hne : h.isEmpty = false := by
      cases h with
      | nil => simp [bearerScheme, List.isPrefixOf] at hpre
      | cons c t => rfl
    simp [canActivate, hne, hpre]
  · intro hpre
    by_cases he : h.isEmpty
    · exact ⟨.missingHeader, by simp [canActivate, he]⟩
    · exact ⟨.invalidFormat, by simp [canActivate, he, hpre]⟩

/-- The rows the query matches before pagination: non-soft-deleted rows
satisfying every supplied predicate. -/
def matchingRows (db : List ProductEntity) (f : FilterProductDto) :
    List ProductEntity :=
  db.filter (fun p => p.deletedAt.isNone && matchesFilter f p)

theorem findAllQuery_eq (db : List ProductEntity) (page limit : Nat)
    (f : FilterProductDto) :
    findAllQuery db page limit f =
      { data := ((matchingRows db f).drop ((page - 1) * limit)).take limit
        total := (matchingRows db f).length
        page := page
        limit := limit
        totalPages := ((matchingRows db f).length + limit - 1) / limit } := rfl

theorem ceil_div_ge (T L : Nat) (hl : 1 ≤ L) : T ≤ (T + L - 1) / L * L := by
  have h1 : (T + L - 1) / L < (T + L - 1) / L + 1 := Nat.lt_succ_self _
  rw [Nat.div_lt_iff_lt_mul (Nat.lt_of_lt_of_le Nat.zero_lt_one hl)] at h1
  have h2 : ((T + L - 1) / L + 1) * L = (T + L - 1) / L * L + L :=
    Nat.succ_mul _ _
  rw [h2] at h1
  generalize (T + L - 1) / L * L = m at *
  omega

theorem ceil_div_least (T L k : Nat) (hl : 1 ≤ L) (h : T ≤ k * L) :
    (T + L - 1) / L ≤ k := by
  have h1 : T + L - 1 ≤ L * k + (L - 1) := by
    rw [Nat.mul_comm]
    generalize k * L = m at *
    omega
  calc (T + L - 1) / L ≤ (L * k + (L - 1)) / L := Nat.div_le_div_right h1
    _ = k + (L - 1) / L :=
        Nat.mul_add_div (Nat.lt_of_lt_of_le Nat.zero_lt_one hl) k (L - 1)
    _ = k := by rw [Nat.div_eq_of_lt (by omega)]; omega

/-- C6: for every page ≥ 1 and limit ≥ 1, `findAll` returns the window of
matching rows starting at offset `(page-1)*limit` of length at most `limit`
(exactly `min limit (total - offset)`), together with the pre-pagination
match count, and `totalPages` is the ceiling of `total / limit`: the least
number of pages of size `limit` covering all matches. -/
theorem findAllQuery_pagination (db : List ProductEntity) (page limit : Nat)
    (f : FilterProductDto) (_hp : 1 ≤ page) (hl : 1 ≤ limit) :
    (findAllQuery db page limit f).total = (matchingRows db f).length ∧
    (findAllQuery db page limit f).data.length =
      min limit ((matchingRows db f).length - (page - 1) * limit) ∧
    (∀ i : Nat, i < (findAllQuery db page limit f).data.length →
      (findAllQuery db page limit f).data[i]? =
        (matchingRows db f)[(page - 1) * limit + i]?) ∧
    (findAllQuery db page limit f).total ≤
      (findAllQuery db page limit f).totalPages * limit ∧
    (∀ k : Nat, (findAllQuery db page limit f).total ≤ k * limit →
      (findAllQuery db page limit f).totalPages ≤ k) := by
  rw [findAllQuery_eq]
  refine ⟨rfl, ?_, ?_, ?_, ?_⟩
  · simp [List.length_take, List.length_drop]
  · intro i hi
    simp only [List.length_take, List.length_drop] at hi
    have hilim : i < limit := Nat.lt_of_lt_of_le hi (Nat.min_le_left _ _)
    simp only [List.getElem?_take, hilim, if_true]
    rw [List.getElem?_drop]
  · exact ceil_div_ge _ _ hl
  · exact fun k hk => ceil_div_least _ _ k hl hk

/-- The category string `"shoes"` of the spec's worked example. -/
def shoesCat : List Char := ['s', 'h', 'o', 'e', 's']

/-- A seeded `"shoes"` row for the spec's worked example. -/
def mkShoe (i : Nat) (price : Int) (del : Option Nat) : ProductEntity :=
  { id := i, name := ['s'], category := shoesCat, price := price
    contentfulId := none, deletedAt := del }

/-- The seeded table of the spec's worked example: 12 matching `"shoes"`
rows plus 3 soft-deleted ones. -/
def exampleDb : List ProductEntity :=
  (List.range 12).map (fun i => mkShoe i 20 none) ++
    (List.range 3).map (fun i => mkShoe (100 + i) 20 (some 1))

/-- The worked example's filter `{category: "shoes", minPrice: 10,
maxPrice: 50}`. -/
def exampleFilter : FilterProductDto :=
  { category := some shoesCat, minPrice := some 10, maxPrice := some 50 }

theorem findAllQuery_pagination_witness :
    ((findAllQuery exampleDb 1 5 exampleFilter).total =
        (matchingRows exampleDb exampleFilter).length ∧
      (findAllQuery exampleDb 1 5 exampleFilter).data.length =
        min 5 ((matchingRows exampleDb exampleFilter).length - (1 - 1) * 5) ∧
      (∀ i : Nat, i < (findAllQuery exampleDb 1 5 exampleFilter).data.length →
        (findAllQuery exampleDb 1 5 exampleFilter).data[i]? =
          (matchingRows exampleDb exampleFilter)[(1 - 1) * 5 + i]?) ∧
      (findAllQuery exampleDb 1 5 exampleFilter).total ≤
        (findAllQuery exampleDb 1 5 exampleFilter).totalPages * 5 ∧
      (∀ k : Nat, (findAllQuery exampleDb 1 5 exampleFilter).total ≤ k * 5 →
        (findAllQuery exampleDb 1 5 exampleFilter).totalPages ≤ k)) ∧
    (findAllQuery exampleDb 1 5 exampleFilter).data.length = 5 ∧
    (findAllQuery exampleDb 1 5 exampleFilter).total = 12 ∧
    (findAllQuery exampleDb 1 5 exampleFilter).totalPages = 3 :=
  ⟨findAllQuery_pagination exampleDb 1 5 exampleFilter (by decide) (by decide),
    by decide, by decide, by decide⟩

theorem matchesFilter_name_empty (f : FilterProductDto) (p : ProductEntity) :
    matchesFilter { f with name := some [] } p =
      matchesFilter { f with name := none } p := by
  simp [matchesFilter]

theorem matchesFilter_category_empty (f : FilterProductDto)
    (p : ProductEntity) :
    matchesFilter { f with category := some [] } p =
      matchesFilter { f with category := none } p := by
  simp [matchesFilter]

/-- A row priced below zero: distinguishes `minPrice = 0` from an absent
`minPrice`. -/
def negPricedRow : ProductEntity :=
  { id := 0, name := [], category := [], price := -1
    contentfulId := none, deletedAt := none }

/-- A row priced above zero: distinguishes `maxPrice = 0` from an absent
`maxPrice`. -/
def posPricedRow : ProductEntity :=
  { id := 0, name := [], category := [], price := 1
    contentfulId := none, deletedAt := none }

/-- C10: `findAll` distinguishes absent filter fields by falsiness for the
string fields but by an undefined-check for the price fields: an
empty-string `name` or `category` imposes no constraint (the whole query
result is the same as with the field absent), whereas a supplied `minPrice`
or `maxPrice` of `0` is applied as a price bound (each excludes a row that
the absent field admits). -/
theorem findAll_falsiness_vs_undefined :
    (∀ (f : FilterProductDto) (db : List ProductEntity) (page limit : Nat),
      findAllQuery db page limit { f with name := some [] } =
        findAllQuery db page limit { f with name := none }) ∧
    (∀ (f : FilterProductDto) (db : List ProductEntity) (page limit : Nat),
      findAllQuery db page limit { f with category := some [] } =
        findAllQuery db page limit { f with category := none }) ∧
    matchesFilter { minPrice := some 0 } negPricedRow = false ∧
    matchesFilter { minPrice := none } negPricedRow = true ∧
    matchesFilter { maxPrice := some 0 } posPricedRow = false ∧
    matchesFilter { maxPrice := none } posPricedRow = true := by
  refine ⟨?_, ?_, by decide, by decide, by decide, by decide⟩
  · intro f db page limit
    have hfun : (fun p => p.deletedAt.isNone &&
        matchesFilter { f with name := some [] } p) =
        (fun p => p.deletedAt.isNone && matchesFilter { f with name := none } p) :=
      funext fun p => by rw [matchesFilter_name_empty]
    simp only [findAllQuery, hfun]
  · intro f db page limit
    have hfun : (fun p => p.deletedAt.isNone &&
        matchesFilter { f with category := some [] } p) =
        (fun p => p.deletedAt.isNone && matchesFilter { f with category := none } p) :=
      funext fun p => by rw [matchesFilter_category_empty]
    simp only [findAllQuery, hfun]

/-- A JSON value occurring in a serialized filter object: the DTO's string
fields serialize as JSON strings, its price fields as JSON numbers
(modelled as integers). -/
inductive JVal where
  | jstr (s : List Char)
  | jnum (i : Int)
deriving DecidableEq, Repr

/-- JSON string escaping as `JSON.stringify` performs it on the quote and
backslash characters (control-character escapes, which no other modelled
character collides with, are not modelled). -/
def escJson : List Char → List Char
  | [] => []
  | c :: cs =>
    if c = '"' ∨ c = '\\' then '\\' :: c :: escJson cs else c :: escJson cs

/-- A JSON string literal: escaped content between double quotes. -/
def quoteJson (s : List Char) : List Char := '"' :: (escJson s ++ ['"'])

/-- Decimal digits of `n`, most significant first, computed with enough
fuel to be structurally recursive. -/
def natCharsAux : Nat → Nat → List Char
  | 0, _ => []
  | fuel + 1, n =>
    if n < 10 then [Nat.digitChar n]
    else natCharsAux fuel (n / 10) ++ [Nat.digitChar (n % 10)]

/-- The decimal rendering of a `Nat`, as JS number-to-string produces it
for non-negative integers. -/
def natChars (n : Nat) : List Char := natCharsAux (n + 1) n

/-- The decimal rendering of an `Int`: a leading minus sign for negative
values. -/
def intChars (i : Int) : List Char :=
  if i < 0 then '-' :: natChars i.natAbs else natChars i.toNat

/-- Rendering of one JSON value. -/
def jval : JVal → List Char
  | .jstr s => quoteJson s
  | .jnum i => intChars i

/-- Rendering of one `"key":value` member. -/
def jpair (k : List Char) (v : JVal) : List Char :=
  quoteJson k ++ ':' :: jval v

/-- Comma-separated concatenation of rendered members. -/
def joinComma : List (List Char) → List Char
  | [] => []
  | [x] => x
  | x :: y :: t => x ++ ',' :: joinComma (y :: t)

/-- `JSON.stringify` of an object given its property list in insertion
order (properties whose value is `undefined` are already omitted from the
list, as `JSON.stringify` drops them). -/
def jobj (fields : List (List Char × JVal)) : List Char :=
  '{' :: (joinComma (fields.map (fun kv => jpair kv.1 kv.2)) ++ ['}'])

def nameKey : List Char := ['n', 'a', 'm', 'e']

def categoryKey : List Char := ['c', 'a', 't', 'e', 'g', 'o', 'r', 'y']

def minPriceKey : List Char := ['m', 'i', 'n', 'P', 'r', 'i', 'c', 'e']

def maxPriceKey : List Char := ['m', 'a', 'x', 'P', 'r', 'i', 'c', 'e']

/-- The property list of the filter DTO in its declaration order (the order
`findAll` destructures it: `name`, `category`, `minPrice`, `maxPrice`),
omitting the `undefined` fields. -/
def filterFields (f : FilterProductDto) : List (List Char × JVal) :=
  (match f.name with
   | some s => [(nameKey, JVal.jstr s)]
   | none => []) ++
  (match f.category with
   | some c => [(categoryKey, JVal.jstr c)]
   | none => []) ++
  (match f.minPrice with
   | some m => [(minPriceKey, JVal.jnum m)]
   | none => []) ++
  (match f.maxPrice with
   | some m => [(maxPriceKey, JVal.jnum m)]
   | none => [])

/-- The characters of the template's fixed namespace part `products_`. -/
def productsNs : List Char := ['p', 'r', 'o', 'd', 'u', 'c', 't', 's', '_']

/-- Line 31 of the service on an arbitrary property order:
`products_${page}_${limit}_${JSON.stringify(filterDto)}`. -/
def cacheKeyRaw (page limit : Nat) (obj : List (List Char × JVal)) :
    List Char :=
  productsNs ++ (natChars page ++ '_' :: (natChars limit ++ '_' :: jobj obj))

/-- The cache key `findAll` computes for a DTO whose properties were set in
declaration order. -/
def cacheKey (page limit : Nat) (f : FilterProductDto) : List Char :=
  cacheKeyRaw page limit (filterFields f)

/-- Read an escaped JSON string body up to its closing quote; returns the
decoded content and the remainder after the quote. -/
def unesc : List Char → Option (List Char × List Char)
  | [] => none
  | [c] => if c = '"' then some ([], []) else none
  | c :: d :: ds =>
    if c = '"' then some ([], d :: ds)
    else if c = '\\' then (unesc ds).map (fun p => (d :: p.1, p.2))
    else (unesc (d :: ds)).map (fun p => (c :: p.1, p.2))

/-- Consume a maximal run of decimal digits, accumulating their value. -/
def takeDigits : List Char → Nat → Nat × List Char
  | [], acc => (acc, [])
  | c :: cs, acc =>
    if c.isDigit then takeDigits cs (acc * 10 + (c.toNat - 48))
    else (acc, c :: cs)

/-- Read a decimal integer with an optional leading minus sign. -/
def parseIntChars : List Char → Int × List Char
  | [] => (0, [])
  | c :: cs =>
    if c = '-' then
      let p := takeDigits cs 0
      (-(p.1 : Int), p.2)
    else
      let p := takeDigits (c :: cs) 0
      ((p.1 : Int), p.2)

/-- Read one JSON value (string or integer). -/
def parseJVal : List Char → Option (JVal × List Char)
  | [] => none
  | c :: cs =>
    if c = '"' then (unesc cs).map (fun p => (JVal.jstr p.1, p.2))
    else
      let p := parseIntChars (c :: cs)
      some (JVal.jnum p.1, p.2)

/-- Read one `"key":value` member. -/
def parsePair (l : List Char) : Option ((List Char × JVal) × List Char) :=
  match l with
  | [] => none
  | c :: r =>
    if c = '"' then
      match unesc r with
      | some (k, r2) =>
        match r2 with
        | ':' :: r3 => (parseJVal r3).map (fun p => ((k, p.1), p.2))
        | _ => none
      | none => none
    else none

/-- Read a non-empty comma-separated member list up to the closing brace. -/
def parseFieldsAux : Nat → List Char → Option (List (List Char × JVal) × List Char)
  | 0, _ => none
  | fuel + 1, l =>
    match parsePair l with
    | none => none
    | some (kv, rest) =>
      match rest with
      | '}' :: r => some ([kv], r)
      | ',' :: r => (parseFieldsAux fuel r).map (fun p => (kv :: p.1, p.2))
      | _ => none

/-- Read a JSON object back into its property list. -/
def parseObj (l : List Char) : Option (List (List Char × JVal) × List Char) :=
  match l with
  | '{' :: r =>
    if r.head? = some '}' then some ([], r.tail)
    else parseFieldsAux (r.length + 1) r
  | _ => none

/-- Strip an expected literal from the front. -/
def dropLit : List Char → List Char → Option (List Char)
  | [], l => some l
  | _ :: _, [] => none
  | p :: ps, c :: cs => if c = p then dropLit ps cs else none

/-- Recover `(page, limit, property list)` from a cache key. -/
def decodeKey (l : List Char) :
    Option (Nat × Nat × List (List Char × JVal)) :=
  match dropLit productsNs l with
  | none => none
  | some r =>
    let p1 := takeDigits r 0
    match p1.2 with
    | '_' :: r2 =>
      let p2 := takeDigits r2 0
      match p2.2 with
      | '_' :: r3 =>
        match parseObj r3 with
        | some (fs, []) => some (p1.1, p2.1, fs)
        | _ => none
      | _ => none
    | _ => none

/-- The value of a string-valued member. -/
def getStr : JVal → Option (List Char)
  | .jstr s => some s
  | .jnum _ => none

/-- The value of a number-valued member. -/
def getNum : JVal → Option Int
  | .jnum i => some i
  | .jstr _ => none

/-- Recover the filter DTO from a serialized property list. -/
def fieldsToFilter (fields : List (List Char × JVal)) : FilterProductDto :=
  { name := (fields.lookup nameKey).bind getStr
    category := (fields.lookup categoryKey).bind getStr
    minPrice := (fields.lookup minPriceKey).bind getNum
    maxPrice := (fields.lookup maxPriceKey).bind getNum }

theorem unesc_quote (rest : List Char) :
    unesc ('"' :: rest) = some ([], rest) := by
  cases rest <;> rfl

theorem unesc_cons_plain (c : Char) (l : List Char) (h1 : c ≠ '"')
    (h2 : c ≠ '\\') (hl : l ≠ []) :
    unesc (c :: l) = (unesc l).map (fun p => (c :: p.1, p.2)) := by
  cases l with
  | nil => exact absurd rfl hl
  | cons d ds => rw [unesc, if_neg h1, if_neg h2]

theorem unesc_escaped (c : Char) (l : List Char) :
    unesc ('\\' :: c :: l) = (unesc l).map (fun p => (c :: p.1, p.2)) := by
  rw [unesc, if_neg (by decide), if_pos rfl]

theorem unesc_escJson (s rest : List Char) :
    unesc (escJson s ++ '"' :: rest) = some (s, rest) := by
  induction s with
  | nil => simp [escJson, unesc_quote]
  | cons c cs ih =>
    by_cases h : c = '"' ∨ c = '\\'
    · rw [escJson]
      simp only [if_pos h, List.cons_append, unesc_escaped, ih]
      rfl
    · push_neg at h
      rw [escJson]
      simp only [if_neg (by tauto : ¬(c = '"' ∨ c = '\\')), List.cons_append]
      rw [unesc_cons_plain c _ h.1 h.2 (by simp)]
      rw [ih]
      rfl

theorem digitChar_isDigit (n : Nat) (h : n < 10) :
    (Nat.digitChar n).isDigit = true := by
  interval_cases n <;> decide

theorem digitChar_toNat (n : Nat) (h : n < 10) :
    (Nat.digitChar n).toNat - 48 = n := by
  interval_cases n <;> decide

theorem takeDigits_natCharsAux (fuel : Nat) :
    ∀ n acc rest, n < 10 ^ fuel →
      takeDigits (natCharsAux fuel n ++ rest) acc =
        takeDigits rest (acc * 10 ^ (natCharsAux fuel n).length + n) := by
  induction fuel with
  | zero =>
    intro n acc rest hn
    have : n = 0 := by omega
    subst this
    simp [natCharsAux, takeDigits]
  | succ fuel ih =>
    intro n acc rest hn
    by_cases h : n < 10
    · simp only [natCharsAux, if_pos h, List.cons_append, List.nil_append,
        takeDigits, digitChar_isDigit n h, if_true, List.length_cons,
        List.length_nil, digitChar_toNat n h, pow_one]
      norm_num
    · have hdiv : n / 10 < 10 ^ fuel := by
        rw [Nat.div_lt_iff_lt_mul (by omega)]
        calc n < 10 ^ (fuel + 1) := hn
          _ = 10 ^ fuel * 10 := by rw [pow_succ]
      simp only [natCharsAux, if_neg h, List.append_assoc, List.cons_append,
        List.nil_append]
      rw [ih (n / 10) acc _ hdiv]
      simp only [takeDigits, digitChar_isDigit (n % 10) (Nat.mod_lt n (by omega)),
        if_true, digitChar_toNat (n % 10) (Nat.mod_lt n (by omega))]
      congr 1
      have hlen : (natCharsAux fuel (n / 10) ++ [Nat.digitChar (n % 10)]).length =
          (natCharsAux fuel (n / 10)).length + 1 := by
        simp
      rw [hlen]
      have hnm : n / 10 * 10 + n % 10 = n := by omega
      calc (acc * 10 ^ (natCharsAux fuel (n / 10)).length + n / 10) * 10 +
            n % 10 =
          acc * (10 ^ (natCharsAux fuel (n / 10)).length * 10) +
            (n / 10 * 10 + n % 10) := by ring
        _ = acc * 10 ^ ((natCharsAux fuel (n / 10)).length + 1) + n := by
            rw [pow_succ, hnm]

/-- `true` when the list does not continue a decimal numeral. -/
def headNotDigit : List Char → Bool
  | [] => true
  | c :: _ => !c.isDigit

theorem takeDigits_natChars (n : Nat) (rest : List Char)
    (hrest : headNotDigit rest = true) :
    takeDigits (natChars n ++ rest) 0 = (n, rest) := by
  have hn : n < 10 ^ (n + 1) := by
    calc n < 10 ^ n := Nat.lt_pow_self (by omega) n
      _ ≤ 10 ^ (n + 1) := Nat.pow_le_pow_right (by omega) (Nat.le_succ n)
  rw [natChars, takeDigits_natCharsAux (n + 1) n 0 rest hn]
  cases rest with
  | nil => simp [takeDigits]
  | cons c cs =>
    simp only [headNotDigit, Bool.not_eq_true'] at hrest
    simp [takeDigits, hrest]

theorem natCharsAux_all_digits (fuel : Nat) :
    ∀ n c, c ∈ natCharsAux fuel n → c.isDigit = true := by
  induction fuel with
  | zero => intro n c hc; simp [natCharsAux] at hc
  | succ fuel ih =>
    intro n c hc
    rw [natCharsAux] at hc
    by_cases h : n < 10
    · rw [if_pos h] at hc
      simp only [List.mem_singleton] at hc
      subst hc
      exact digitChar_isDigit n h
    · rw [if_neg h] at hc
      rcases List.mem_append.mp hc with h1 | h2
      · exact ih (n / 10) c h1
      · simp only [List.mem_singleton] at h2
        subst h2
        exact digitChar_isDigit (n % 10) (Nat.mod_lt n (by omega))

theorem natChars_ne_nil (n : Nat) : natChars n ≠ [] := by
  rw [natChars, natCharsAux]
  by_cases h : n < 10
  · simp [if_pos h]
  · simp [if_neg h]

theorem parseIntChars_intChars (i : Int) (rest : List Char)
    (hrest : headNotDigit rest = true) :
    parseIntChars (intChars i ++ rest) = (i, rest) := by
  by_cases hneg : i < 0
  · rw [intChars, if_pos hneg, List.cons_append, parseIntChars, if_pos rfl,
      takeDigits_natChars i.natAbs rest hrest]
    have h : -(i.natAbs : Int) = i := by omega
    show (-(i.natAbs : Int), rest) = (i, rest)
    rw [h]
  · rw [intChars, if_neg hneg]
    rcases hcons : natChars i.toNat with _ | ⟨c, cs⟩
    · exact absurd hcons (natChars_ne_nil _)
    · have hcd : c.isDigit = true := by
        apply natCharsAux_all_digits (i.toNat + 1) i.toNat
        rw [← natChars, hcons]
        exact List.mem_cons_self c cs
      have hcne : c ≠ '-' := by
        intro hc
        rw [hc] at hcd
        exact absurd hcd (by decide)
      rw [List.cons_append, parseIntChars, if_neg hcne, ← List.cons_append,
        ← hcons, takeDigits_natChars i.toNat rest hrest]
      have h : (i.toNat : Int) = i := Int.toNat_of_nonneg (by omega)
      show ((i.toNat : Int), rest) = (i, rest)
      rw [h]

theorem parseJVal_jval (v : JVal) (rest : List Char)
    (hrest : headNotDigit rest = true) :
    parseJVal (jval v ++ rest) = some (v, rest) := by
  cases v with
  | jstr s =>
    rw [jval, quoteJson, List.cons_append, parseJVal, if_pos rfl,
      List.append_assoc, List.singleton_append, unesc_escJson]
    rfl
  | jnum i =>
    rcases hcons : intChars i with _ | ⟨c, cs⟩
    · exfalso
      rw [intChars] at hcons
      by_cases hneg : i < 0
      · rw [if_pos hneg] at hcons
        exact List.noConfusion hcons
      · rw [if_neg hneg] at hcons
        exact absurd hcons (natChars_ne_nil _)
    · have hcne : c ≠ '"' := by
        rw [intChars] at hcons
        by_cases hneg : i < 0
        · rw [if_pos hneg] at hcons
          cases hcons
          decide
        · rw [if_neg hneg] at hcons
          have : c.isDigit = true := by
            apply natCharsAux_all_digits (i.toNat + 1) i.toNat
            rw [← natChars, hcons]
            exact List.mem_cons_self c cs
          intro hc
          rw [hc] at this
          exact absurd this (by decide)
      rw [jval, hcons, List.cons_append, parseJVal, if_neg hcne,
        ← List.cons_append, ← hcons, parseIntChars_intChars i rest hrest]

theorem parsePair_jpair (k : List Char) (v : JVal) (rest : List Char)
    (hrest : headNotDigit rest = true) :
    parsePair (jpair k v ++ rest) = some ((k, v), rest) := by
  have hshape : jpair k v ++ rest =
      '"' :: (escJson k ++ '"' :: (':' :: (jval v ++ rest))) := by
    rw [jpair, quoteJson]
    simp [List.append_assoc]
  rw [hshape]
  simp only [parsePair, if_pos rfl, unesc_escJson, parseJVal_jval v rest hrest,
    if_true, Option.map]


theorem jpair_ne_nil (k : List Char) (v : JVal) : jpair k v ≠ [] := by
  rw [jpair, quoteJson]
  simp

theorem headNotDigit_cons (c : Char) (l : List Char) (h : c.isDigit = false) :
    headNotDigit (c :: l) = true := by
  simp [headNotDigit, h]

theorem parseFieldsAux_round (t : List (List Char × JVal)) :
    ∀ (kv : List Char × JVal) (fuel : Nat) (rest : List Char),
      t.length < fuel →
      parseFieldsAux fuel
          (joinComma ((kv :: t).map (fun q => jpair q.1 q.2)) ++ '}' :: rest) =
        some (kv :: t, rest) := by
  induction t with
  | nil =>
    intro kv fuel rest hfuel
    rcases fuel with _ | fuel
    · omega
    have hj : joinComma (([kv] : List (List Char × JVal)).map
        (fun q => jpair q.1 q.2)) = jpair kv.1 kv.2 := rfl
    rw [hj, parseFieldsAux,
      parsePair_jpair kv.1 kv.2 ('}' :: rest) (headNotDigit_cons _ _ (by decide))]
    rfl
  | cons kv2 t2 ih =>
    intro kv fuel rest hfuel
    rcases fuel with _ | fuel
    · omega
    have hj : joinComma ((kv :: kv2 :: t2).map (fun q => jpair q.1 q.2)) =
        jpair kv.1 kv.2 ++
          ',' :: joinComma ((kv2 :: t2).map (fun q => jpair q.1 q.2)) := rfl
    rw [hj, List.append_assoc, List.cons_append, parseFieldsAux,
      parsePair_jpair kv.1 kv.2
        (',' :: (joinComma ((kv2 :: t2).map (fun q => jpair q.1 q.2)) ++
          '}' :: rest)) (headNotDigit_cons _ _ (by decide))]
    have hrec := ih kv2 fuel rest (by simp at hfuel ⊢; omega)
    simp only [hrec, Option.map]

theorem joinComma_len (fields : List (List Char × JVal)) :
    fields.length ≤
      (joinComma (fields.map (fun q => jpair q.1 q.2))).length + 1 := by
  induction fields with
  | nil => simp
  | cons kv t ih =>
    cases t with
    | nil => simp [joinComma]
    | cons kv2 t2 =>
      have hj : joinComma ((kv :: kv2 :: t2).map (fun q => jpair q.1 q.2)) =
          jpair kv.1 kv.2 ++
            ',' :: joinComma ((kv2 :: t2).map (fun q => jpair q.1 q.2)) := rfl
      rw [hj]
      simp only [List.length_cons, List.length_append] at ih ⊢
      have hk : 1 ≤ (jpair kv.1 kv.2).length :=
        List.length_pos.mpr (jpair_ne_nil kv.1 kv.2)
      omega

theorem jpair_head (k : List Char) (v : JVal) (tail : List Char) :
    (jpair k v ++ tail).head? = some '"' := by
  rw [jpair, quoteJson]
  rfl

theorem parseObj_round (fields : List (List Char × JVal)) (rest : List Char) :
    parseObj (jobj fields ++ rest) = some (fields, rest) := by
  have hshape : jobj fields ++ rest =
      '{' :: (joinComma (fields.map (fun q => jpair q.1 q.2)) ++
        '}' :: rest) := by
    rw [jobj]
    simp [List.append_assoc]
  rw [hshape]
  cases fields with
  | nil => simp [parseObj, joinComma]
  | cons kv t =>
    have hhead : (joinComma ((kv :: t).map (fun q => jpair q.1 q.2)) ++
        '}' :: rest).head? = some '"' := by
      cases t with
      | nil =>
        have hj : joinComma (([kv] : List (List Char × JVal)).map
            (fun q => jpair q.1 q.2)) = jpair kv.1 kv.2 := rfl
        rw [hj]
        exact jpair_head _ _ _
      | cons kv2 t2 =>
        have hj : joinComma ((kv :: kv2 :: t2).map (fun q => jpair q.1 q.2)) =
            jpair kv.1 kv.2 ++
              ',' :: joinComma ((kv2 :: t2).map (fun q => jpair q.1 q.2)) := rfl
        rw [hj, List.append_assoc]
        exact jpair_head _ _ _
    rw [parseObj]
    simp only [hhead]
    rw [if_neg (by simp)]
    have hlen : t.length <
        (joinComma ((kv :: t).map (fun q => jpair q.1 q.2)) ++
          '}' :: rest).length + 1 := by
      have h1 := joinComma_len (kv :: t)
      simp only [List.length_append, List.length_cons] at h1 ⊢
      omega
    have := parseFieldsAux_round t kv
      ((joinComma ((kv :: t).map (fun q => jpair q.1 q.2)) ++
        '}' :: rest).length + 1) rest hlen
    rw [this]

theorem dropLit_append (p l : List Char) : dropLit p (p ++ l) = some l := by
  induction p with
  | nil => rfl
  | cons c cs ih => simp [dropLit, ih]

theorem decodeKey_round (page limit : Nat) (obj : List (List Char × JVal)) :
    decodeKey (cacheKeyRaw page limit obj) = some (page, limit, obj) := by
  rw [decodeKey, cacheKeyRaw, dropLit_append]
  have h1 : takeDigits (natChars page ++
      '_' :: (natChars limit ++ '_' :: jobj obj)) 0 =
      (page, '_' :: (natChars limit ++ '_' :: jobj obj)) :=
    takeDigits_natChars page _ (headNotDigit_cons _ _ (by decide))
  have h2 : takeDigits (natChars limit ++ '_' :: jobj obj) 0 =
      (limit, '_' :: jobj obj) :=
    takeDigits_natChars limit _ (headNotDigit_cons _ _ (by decide))
  have h3 : parseObj (jobj obj) = some (obj, []) := by
    have := parseObj_round obj []
    rwa [List.append_nil] at this
  simp only [h1, h2, h3]

theorem cacheKeyRaw_inj (p1 l1 : Nat) (o1 : List (List Char × JVal))
    (p2 l2 : Nat) (o2 : List (List Char × JVal))
    (h : cacheKeyRaw p1 l1 o1 = cacheKeyRaw p2 l2 o2) :
    p1 = p2 ∧ l1 = l2 ∧ o1 = o2 := by
  have hd := congrArg decodeKey h
  rw [decodeKey_round, decodeKey_round] at hd
  injection hd with hd
  injection hd with h1 hd
  injection hd with h2 h3
  exact ⟨h1, h2, h3⟩

theorem fieldsToFilter_filterFields (f : FilterProductDto) :
    fieldsToFilter (filterFields f) = f := by
  obtain ⟨n, c, mi, ma⟩ := f
  cases n <;> cases c <;> cases mi <;> cases ma <;>
    simp [filterFields, fieldsToFilter, List.lookup, nameKey, categoryKey,
      minPriceKey, maxPriceKey, getStr, getNum]

/-- C2, as stated, fails on the code: the key is built by serializing the
filter object directly, so the two insertion orders of the same two
properties (`name="a"`, `category="b"`) — logically the same filter, as
witnessed by the permutation and by decoding to the same DTO — produce two
different cache keys for the same page and limit. -/
theorem cacheKey_field_order_counterexample :
    ([(nameKey, JVal.jstr ['a']), (categoryKey, JVal.jstr ['b'])].Perm
        [(categoryKey, JVal.jstr ['b']), (nameKey, JVal.jstr ['a'])] ∧
      fieldsToFilter
          [(nameKey, JVal.jstr ['a']), (categoryKey, JVal.jstr ['b'])] =
        fieldsToFilter
          [(categoryKey, JVal.jstr ['b']), (nameKey, JVal.jstr ['a'])]) ∧
    cacheKeyRaw 1 5 [(nameKey, JVal.jstr ['a']), (categoryKey, JVal.jstr ['b'])] ≠
      cacheKeyRaw 1 5
        [(categoryKey, JVal.jstr ['b']), (nameKey, JVal.jstr ['a'])] :=
  ⟨⟨by decide, by decide⟩, by decide⟩

/-- C2 amended: for a fixed property insertion order (the DTO's declaration
order), the cache key is a deterministic injective function of
(page, limit, filter): any difference in page, limit, or any filter field
value produces a different key.  (Identical filters whose properties were
set in another order can still produce a different key, see the
counterexample.) -/
theorem cacheKey_deterministic_injective (p1 l1 : Nat) (f1 : FilterProductDto)
    (p2 l2 : Nat) (f2 : FilterProductDto)
    (h : cacheKey p1 l1 f1 = cacheKey p2 l2 f2) :
    p1 = p2 ∧ l1 = l2 ∧ f1 = f2 := by
  obtain ⟨h1, h2, h3⟩ :=
    cacheKeyRaw_inj p1 l1 (filterFields f1) p2 l2 (filterFields f2) h
  refine ⟨h1, h2, ?_⟩
  have h4 := congrArg fieldsToFilter h3
  rwa [fieldsToFilter_filterFields, fieldsToFilter_filterFields] at h4

theorem cacheKey_deterministic_injective_witness :
    (3 : Nat) = 3 ∧ (5 : Nat) = 5 ∧
      ({ category := some shoesCat } : FilterProductDto) =
        { category := some shoesCat } :=
  cacheKey_deterministic_injective 3 5 { category := some shoesCat }
    3 5 { category := some shoesCat } rfl

/-- The cache-manager's visible state: an association list from keys to
cached pages (entries unique per key under the operations below; the
1-hour TTL only evicts entries and is not modelled as time). -/
abbrev CacheState := List (List Char × PaginatedResult)

/-- One kind of error thrown by the external cache library. -/
inductive CacheError where
  | storeFailure
deriving DecidableEq, Repr

/-- `cacheManager.get(key)`. -/
def cacheGet (k : List Char) (c : CacheState) : Option PaginatedResult :=
  (c.find? (fun e => e.1 == k)).map (fun e => e.2)

/-- `cacheManager.set(key, value, ttl)`: overwrites the entry at the key. -/
def cacheSet (k : List Char) (v : PaginatedResult) (c : CacheState) :
    CacheState :=
  c.filter (fun e => !(e.1 == k)) ++ [(k, v)]

/-- `cacheManager.del(key)`. -/
def cacheDel (k : List Char) (c : CacheState) : CacheState :=
  c.filter (fun e => !(e.1 == k))

/-- The cache library as `invalidateCache` touches it: `store` is the
optional underlying store (`(cacheManager as any).store`, `none` when the
adapter exposes none); when present, its `keys('products_*')` enumeration
may return a key list or throw; `del` may delete or throw.  Arbitrary
functions model every behaviour of the external library. -/
structure CacheOps where
  store : Option (CacheState → Except CacheError (List (List Char)))
  del : List Char → CacheState → Except CacheError CacheState

/-- `await Promise.all(keys.map(key => del(key)))`, sequentially: deletes
until a rejection; an error carries the cache state already reached, since
a JS exception does not roll the external cache back. -/
def delAll (del : List Char → CacheState → Except CacheError CacheState) :
    List (List Char) → CacheState → Except (CacheError × CacheState) CacheState
  | [], c => .ok c
  | k :: ks, c =>
    match del k c with
    | .error e => .error (e, c)
    | .ok c2 => delAll del ks c2

/-- The body of `invalidateCache` (lines 84–92) without its `try/catch`:
skip silently when the store is falsy, otherwise enumerate
`keys('products_*')` and delete them all (only when some exist). -/
def invalidateBody (ops : CacheOps) (c : CacheState) :
    Except (CacheError × CacheState) CacheState :=
  match ops.store with
  | none => .ok c
  | some keysFn =>
    match keysFn c with
    | .error e => .error (e, c)
    | .ok ks => if ks.length > 0 then delAll ops.del ks c else .ok c

/-- `invalidateCache`: the body wrapped in its `try/catch` — any thrown
error is swallowed and only logged as a warning (the boolean records
whether the warning fired). -/
def invalidateCacheTry (ops : CacheOps) (c : CacheState) :
    Except (CacheError × CacheState) (CacheState × Bool) :=
  match invalidateBody ops c with
  | .ok c2 => .ok (c2, false)
  | .error (_, c2) => .ok (c2, true)

/-- `softDelete(id)` (lines 76–80): mark the row deleted, then invalidate
the product cache; its result propagates any error `invalidateCache` lets
escape. -/
def softDeleteRows (id now : Nat) (rows : List ProductEntity) :
    List ProductEntity :=
  rows.map (fun r => if r.id = id then { r with deletedAt := some now } else r)

def softDelete (ops : CacheOps) (id now : Nat) (db : List ProductEntity)
    (c : CacheState) :
    Except (CacheError × CacheState)
      (List ProductEntity × CacheState × Bool) :=
  match invalidateCacheTry ops c with
  | .ok (c2, w) => .ok (softDeleteRows id now db, c2, w)
  | .error p => .error p

/-- C8: cache invalidation never fails its caller.  For every behaviour of
the underlying cache store — absent store, an enumeration that throws, a
delete that throws — `invalidateCache` returns normally: an absent store
degrades to a no-op without a warning, a thrown error is swallowed with a
warning, and therefore the triggering `softDelete` always returns
normally as well. -/
theorem invalidateCache_never_fails (ops : CacheOps) (c : CacheState) :
    (∃ r, invalidateCacheTry ops c = .ok r) ∧
    (ops.store = none → invalidateCacheTry ops c = .ok (c, false)) ∧
    (∀ e c2, invalidateBody ops c = .error (e, c2) →
      invalidateCacheTry ops c = .ok (c2, true)) ∧
    (∀ id now db, ∃ r2, softDelete ops id now db c = .ok r2) := by
  refine ⟨?_, ?_, ?_, ?_⟩
  · rcases hb : invalidateBody ops c with p | c2
    · exact ⟨(p.2, true), by rw [invalidateCacheTry, hb]⟩
    · exact ⟨(c2, false), by rw [invalidateCacheTry, hb]⟩
  · intro hs
    rw [invalidateCacheTry, invalidateBody, hs]
  · intro e c2 hb
    rw [invalidateCacheTry, hb]
  · intro id now db
    rcases hb : invalidateBody ops c with p | c2
    · exact ⟨(softDeleteRows id now db, p.2, true),
        by rw [softDelete, invalidateCacheTry, hb]⟩
    · exact ⟨(softDeleteRows id now db, c2, false),
        by rw [softDelete, invalidateCacheTry, hb]⟩

/-- An underlying store that supports key enumeration: `keys('products_*')`
returns exactly the live keys carrying the `products_` prefix. -/
def honestKeys (c : CacheState) : Except CacheError (List (List Char)) :=
  .ok ((c.map (fun e => e.1)).filter (fun k => productsNs.isPrefixOf k))

/-- A delete that removes the key. -/
def honestDel (k : List Char) (c : CacheState) :
    Except CacheError CacheState :=
  .ok (cacheDel k c)

/-- The cache library behaving as documented. -/
def honestOps : CacheOps := { store := some honestKeys, del := honestDel }


theorem delAll_honest (ks : List (List Char)) :
    ∀ c : CacheState,
      delAll honestDel ks c = .ok (c.filter (fun e => !(ks.contains e.1))) := by
  induction ks with
  | nil =>
    intro c
    simp [delAll, List.filter_true]
  | cons k ks ih =>
    intro c
    show delAll honestDel ks (cacheDel k c) = _
    rw [ih (cacheDel k c)]
    congr 1
    rw [cacheDel, List.filter_filter]
    apply List.filter_congr
    intro e _
    simp only [List.contains_cons, Bool.not_or]
    rw [Bool.and_comm]

theorem invalidateBody_honest (c : CacheState) :
    invalidateBody honestOps c =
      .ok (c.filter (fun e => !(productsNs.isPrefixOf e.1))) := by
  have hkeys : ∀ x : List Char,
      x ∈ (c.map (fun e => e.1)).filter (fun k => productsNs.isPrefixOf k) ↔
        (x ∈ c.map (fun e => e.1) ∧ productsNs.isPrefixOf x = true) :=
    fun x => List.mem_filter
  show (match honestKeys c with
    | Except.error e => Except.error (e, c)
    | Except.ok ks =>
      if ks.length > 0 then delAll honestOps.del ks c else Except.ok c) =
    Except.ok (c.filter (fun e => !(productsNs.isPrefixOf e.1)))
  rw [honestKeys]
  set ks := (c.map (fun e => e.1)).filter (fun k => productsNs.isPrefixOf k)
    with hksdef
  show (if ks.length > 0 then delAll honestOps.del ks c else .ok c) = _
  by_cases hks : ks.length > 0
  · rw [if_pos hks]
    show delAll honestDel ks c = _
    rw [delAll_honest]
    congr 1
    apply List.filter_congr
    intro e he
    congr 1
    by_cases hp : productsNs.isPrefixOf e.1 = true
    · rw [hp]
      exact List.elem_iff.mpr
        ((hkeys e.1).mpr ⟨List.mem_map.mpr ⟨e, he, rfl⟩, hp⟩)
    · have hnot : e.1 ∉ ks := fun hmem => hp ((hkeys e.1).mp hmem).2
      have h1 : ¬(ks.contains e.1 = true) := fun hcont =>
        hnot (List.elem_iff.mp hcont)
      rw [eq_false_of_ne_true hp, eq_false_of_ne_true h1]
  · rw [if_neg hks]
    congr 1
    symm
    apply List.filter_eq_self.mpr
    intro e he
    by_contra hbad
    have hp : productsNs.isPrefixOf e.1 = true := by
      rcases Bool.eq_false_or_eq_true (productsNs.isPrefixOf e.1) with h | h
      · exact h
      · exact absurd (by rw [h]; rfl) hbad
    have hmem : e.1 ∈ ks :=
      (hkeys e.1).mpr ⟨List.mem_map.mpr ⟨e, he, rfl⟩, hp⟩
    exact hks (List.length_pos.mpr (List.ne_nil_of_mem hmem))

/-- C9: after a successful `softDelete`, when the store supports key
enumeration (the honest store), the cache retains exactly the entries
without the `products_` prefix, so every previously cached page under the
`products_` namespace has been removed before `softDelete` returns and no
prefixed key remains readable. -/
theorem softDelete_removes_cached_pages (id now : Nat)
    (db : List ProductEntity) (c : CacheState) (k : List Char)
    (hk : productsNs.isPrefixOf k = true) :
    softDelete honestOps id now db c =
      .ok (softDeleteRows id now db,
        c.filter (fun e => !(productsNs.isPrefixOf e.1)), false) ∧
    cacheGet k (c.filter (fun e => !(productsNs.isPrefixOf e.1))) = none := by
  constructor
  · rw [softDelete, invalidateCacheTry, invalidateBody_honest]
  · rw [cacheGet]
    have hfind : (c.filter (fun e => !(productsNs.isPrefixOf e.1))).find?
        (fun e => e.1 == k) = none := by
      apply List.find?_eq_none.mpr
      intro e he hbeq
      have hpe : (!(productsNs.isPrefixOf e.1)) = true :=
        (List.mem_filter.mp he).2
      have hek : e.1 = k := by simpa using hbeq
      rw [hek, hk] at hpe
      exact absurd hpe (by decide)
    rw [hfind]
    rfl

/-- A concrete cached page for the C9 witness. -/
def sampleResult : PaginatedResult :=
  { data := [], total := 0, page := 1, limit := 5, totalPages := 0 }

/-- A concrete `products_`-prefixed cache key. -/
def sampleKey : List Char :=
  ['p', 'r', 'o', 'd', 'u', 'c', 't', 's', '_', '1']

theorem softDelete_removes_cached_pages_witness :
    softDelete honestOps 7 99 exampleDb [(sampleKey, sampleResult)] =
      .ok (softDeleteRows 7 99 exampleDb,
        [(sampleKey, sampleResult)].filter
          (fun e => !(productsNs.isPrefixOf e.1)), false) ∧
    cacheGet sampleKey
      ([(sampleKey, sampleResult)].filter
        (fun e => !(productsNs.isPrefixOf e.1))) = none :=
  softDelete_removes_cached_pages 7 99 exampleDb [(sampleKey, sampleResult)]
    sampleKey (by decide)

/-- `findAll` with its cache (lines 27–74): on a hit the cached page is
returned unchanged; on a miss the query runs and the result is stored
under the computed key. -/
def findAllS (db : List ProductEntity) (page limit : Nat)
    (f : FilterProductDto) (c : CacheState) : PaginatedResult × CacheState :=
  match cacheGet (cacheKey page limit f) c with
  | some r => (r, c)
  | none =>
    (findAllQuery db page limit f,
      cacheSet (cacheKey page limit f) (findAllQuery db page limit f) c)

/-- A result whose data array holds no soft-deleted row. -/
def goodResult (r : PaginatedResult) : Prop :=
  ∀ p ∈ r.data, p.deletedAt = none

/-- A cache all of whose entries hold no soft-deleted row; every entry the
service ever stores originates from `findAllS` itself, so this is an
invariant from the empty initial cache. -/
def goodCache (c : CacheState) : Prop :=
  ∀ e ∈ c, goodResult e.2

theorem findAllQuery_good (db : List ProductEntity) (page limit : Nat)
    (f : FilterProductDto) : goodResult (findAllQuery db page limit f) := by
  intro p hp
  rw [findAllQuery_eq] at hp
  have h1 : p ∈ (matchingRows db f).drop ((page - 1) * limit) :=
    List.mem_of_mem_take hp
  have h2 : p ∈ matchingRows db f := List.mem_of_mem_drop h1
  have h3 := (List.mem_filter.mp h2).2
  have h4 : p.deletedAt.isNone = true := by
    cases hdel : p.deletedAt.isNone
    · rw [hdel] at h3
      simp at h3
    · rfl
  exact Option.isNone_iff_eq_none.mp h4

/-- C1: for every pagination request and filter, `findAll` returns only
rows whose soft-delete marker is absent, and preserves that property of
the cache: starting from a cache whose entries only hold non-deleted rows
(as every entry written by `findAll` does), both the returned page and
every cache entry after the call are free of soft-deleted rows. -/
theorem findAll_excludes_soft_deleted (db : List ProductEntity)
    (page limit : Nat) (f : FilterProductDto) (c : CacheState)
    (hc : goodCache c) :
    goodResult (findAllS db page limit f c).1 ∧
    goodCache (findAllS db page limit f c).2 := by
  rw [findAllS]
  cases hget : cacheGet (cacheKey page limit f) c with
  | some r =>
    refine ⟨?_, hc⟩
    rw [cacheGet] at hget
    cases hfind : c.find? (fun e => e.1 == cacheKey page limit f) with
    | none => rw [hfind] at hget; exact absurd hget (by simp)
    | some e =>
      rw [hfind] at hget
      have he : e ∈ c := List.mem_of_find?_eq_some hfind
      have : e.2 = r := by simpa using hget
      rw [← this]
      exact hc e he
  | none =>
    refine ⟨findAllQuery_good db page limit f, ?_⟩
    intro e he
    rcases List.mem_append.mp he with h1 | h2
    · exact hc e (List.mem_filter.mp h1).1
    · have : e = (cacheKey page limit f, findAllQuery db page limit f) := by
        simpa using h2
      rw [this]
      exact findAllQuery_good db page limit f

theorem findAll_excludes_soft_deleted_witness :
    goodResult (findAllS exampleDb 1 5 exampleFilter []).1 ∧
    goodCache (findAllS exampleDb 1 5 exampleFilter []).2 :=
  findAll_excludes_soft_deleted exampleDb 1 5 exampleFilter []
    (by intro e he; exact absurd he (List.not_mem_nil e))

/-- Modelled from the spec: the output of
`ContentfulAdapter.toProductEntity` (the adapter file is not among the
staged sources) — "a payload mappable to Product fields, each record
bearing a stable external identifier": the mutable columns plus the
always-present external identifier `item.sys.id`; the adapter sets neither
`id` nor `deletedAt`. -/
structure EntityData where
  name : List Char
  category : List Char
  price : Int
  contentfulId : List Char
deriving DecidableEq, Repr

/-- The relational store behind the repository: the rows plus the
primary-key generator state. -/
structure Store where
  nextId : Nat
  rows : List ProductEntity
deriving DecidableEq, Repr

/-- The database invariant: primary keys are unique and the generator is
ahead of every existing key. -/
def WF (s : Store) : Prop :=
  (s.rows.map (fun r => r.id)).Nodup ∧ ∀ r ∈ s.rows, r.id < s.nextId

instance : DecidablePred WF := fun s =>
  inferInstanceAs (Decidable (_ ∧ _))

/-- `findOne({ where: { contentfulId }, withDeleted: true })`: first row —
soft-deleted ones included — carrying the external identifier. -/
def findByCid (cid : List Char) (rows : List ProductEntity) :
    Option ProductEntity :=
  rows.find? (fun r => r.contentfulId == some cid)

/-- `update(existingProduct.id, productEntity)`: overwrite the adapter's
columns on the row(s) with that primary key; `id` and `deletedAt` are
untouched. -/
def updateRow (id : Nat) (e : EntityData) (rows : List ProductEntity) :
    List ProductEntity :=
  rows.map (fun r =>
    if r.id = id then
      { r with name := e.name, category := e.category, price := e.price
               contentfulId := some e.contentfulId }
    else r)

/-- `save(productEntity)`: insert a fresh row under a fresh key. -/
def saveRow (e : EntityData) (s : Store) : Store :=
  { nextId := s.nextId + 1
    rows := s.rows ++
      [{ id := s.nextId, name := e.name, category := e.category
         price := e.price, contentfulId := some e.contentfulId
         deletedAt := none }] }

/-- One iteration of the sync loop (lines 112–124): update in place when a
row (even a soft-deleted one) carries the external identifier, create
otherwise. -/
def upsert (e : EntityData) (s : Store) : Store :=
  match findByCid e.contentfulId s.rows with
  | some existing => { s with rows := updateRow existing.id e s.rows }
  | none => saveRow e s

/-- The whole upsert pass over the fetched, successfully mapped items. -/
def syncStore (es : List EntityData) (s : Store) : Store :=
  es.foldl (fun s e => upsert e s) s

theorem updateRow_id_map (id : Nat) (e : EntityData)
    (rows : List ProductEntity) :
    (updateRow id e rows).map (fun r => r.id) = rows.map (fun r => r.id) := by
  rw [updateRow, List.map_map]
  apply List.map_congr_left
  intro r _
  by_cases h : r.id = id <;> simp [h]

theorem mem_updateRow (id : Nat) (e : EntityData) (rows : List ProductEntity)
    (r' : ProductEntity) (h : r' ∈ updateRow id e rows) :
    ∃ r ∈ rows, r' = (if r.id = id then
      { r with name := e.name, category := e.category, price := e.price
               contentfulId := some e.contentfulId } else r) := by
  rw [updateRow] at h
  rcases List.mem_map.mp h with ⟨r, hr, hr'⟩
  exact ⟨r, hr, hr'.symm⟩

theorem wf_upsert (e : EntityData) (s : Store) (hwf : WF s) :
    WF (upsert e s) := by
  rw [upsert]
  cases hfind : findByCid e.contentfulId s.rows with
  | some existing =>
    refine ⟨?_, ?_⟩
    · show ((updateRow existing.id e s.rows).map (fun r => r.id)).Nodup
      rw [updateRow_id_map]
      exact hwf.1
    · intro r' hr'
      rcases mem_updateRow _ _ _ _ hr' with ⟨r, hr, heq⟩
      have : r'.id = r.id := by
        rw [heq]
        by_cases h : r.id = existing.id <;> simp [h]
      rw [this]
      exact hwf.2 r hr
  | none =>
    refine ⟨?_, ?_⟩
    · show ((s.rows ++
        [({ id := s.nextId, name := e.name, category := e.category
            price := e.price, contentfulId := some e.contentfulId
            deletedAt := none } : ProductEntity)]).map
          (fun r => r.id)).Nodup
      rw [List.map_append]
      simp only [List.map_cons, List.map_nil]
      rw [List.nodup_append]
      refine ⟨hwf.1, List.nodup_singleton _, ?_⟩
      intro a ha hb
      simp only [List.mem_singleton] at hb
      rcases List.mem_map.mp ha with ⟨r, hr, hid⟩
      have := hwf.2 r hr
      omega
    · intro r' hr'
      rcases List.mem_append.mp hr' with h1 | h2
      · have := hwf.2 r' h1
        show r'.id < s.nextId + 1
        omega
      · simp only [List.mem_singleton] at h2
        rw [h2]
        show s.nextId < s.nextId + 1
        omega

theorem wf_syncStore (es : List EntityData) :
    ∀ s : Store, WF s → WF (syncStore es s) := by
  induction es with
  | nil => intro s hwf; exact hwf
  | cons e es ih =>
    intro s hwf
    exact ih (upsert e s) (wf_upsert e s hwf)

theorem syncStore_cons (e : EntityData) (es : List EntityData) (s : Store) :
    syncStore (e :: es) s = syncStore es (upsert e s) := rfl

/-- `find?` is unchanged by a map that neither changes any element's
predicate value nor any element satisfying the predicate. -/
theorem find?_map_congr (p : ProductEntity → Bool)
    (f : ProductEntity → ProductEntity) :
    ∀ rows : List ProductEntity,
      (∀ r ∈ rows, p (f r) = p r ∧ (p r = true → f r = r)) →
      (rows.map f).find? p = rows.find? p := by
  intro rows
  induction rows with
  | nil => intro _; rfl
  | cons r t ih =>
    intro h
    have hr := h r (List.mem_cons_self r t)
    simp only [List.map_cons, List.find?_cons]
    cases hp : p r with
    | true =>
      rw [hr.2 hp, hp]
    | false =>
      rw [hr.1, hp]
      exact ih (fun r' hr' => h r' (List.mem_cons_of_mem r hr'))

theorem cid_beq_true {r : ProductEntity} {c : List Char}
    (h : r.contentfulId = some c) : (r.contentfulId == some c) = true := by
  rw [h]
  exact beq_self_eq_true _

theorem cid_beq_false {r : ProductEntity} {c : List Char}
    (h : r.contentfulId ≠ some c) : (r.contentfulId == some c) = false := by
  rw [beq_eq_false_iff_ne]
  exact h


/-- The row `save` inserts, for stating lemmas about `saveRow`. -/
def newRow (e : EntityData) (id : Nat) : ProductEntity :=
  { id := id, name := e.name, category := e.category, price := e.price
    contentfulId := some e.contentfulId, deletedAt := none }

theorem saveRow_eq (e : EntityData) (s : Store) :
    saveRow e s =
      { nextId := s.nextId + 1, rows := s.rows ++ [newRow e s.nextId] } := rfl

/-- The row `update` writes over `r`, for stating lemmas about
`updateRow`. -/
def writtenRow (e : EntityData) (r : ProductEntity) : ProductEntity :=
  { r with name := e.name, category := e.category, price := e.price
           contentfulId := some e.contentfulId }

theorem updateRow_eq (id : Nat) (e : EntityData)
    (rows : List ProductEntity) :
    updateRow id e rows =
      rows.map (fun r => if r.id = id then writtenRow e r else r) := rfl

theorem upsert_preserves_findByCid (c : List Char) (e' : EntityData)
    (s : Store) (hwf : WF s) (hne : e'.contentfulId ≠ c) :
    findByCid c (upsert e' s).rows = findByCid c s.rows := by
  have hsomene : some e'.contentfulId ≠ some c :=
    fun hx => hne (Option.some.inj hx)
  rw [upsert]
  cases hfind : findByCid e'.contentfulId s.rows with
  | some rf =>
    have hfind2 : s.rows.find?
        (fun r => r.contentfulId == some e'.contentfulId) = some rf := hfind
    have hrfmem : rf ∈ s.rows := List.mem_of_find?_eq_some hfind2
    have hbeq : (rf.contentfulId == some e'.contentfulId) = true :=
      @List.find?_some ProductEntity
        (fun r => r.contentfulId == some e'.contentfulId) rf s.rows hfind2
    have hrfcid : rf.contentfulId = some e'.contentfulId := eq_of_beq hbeq
    show findByCid c (updateRow rf.id e' s.rows) = findByCid c s.rows
    rw [findByCid, findByCid, updateRow_eq]
    apply find?_map_congr
    intro r hr
    by_cases h : r.id = rf.id
    · have hreq : r = rf := List.inj_on_of_nodup_map hwf.1 hr hrfmem h
      have hpr : (r.contentfulId == some c) = false := by
        rw [hreq]
        exact cid_beq_false (by rw [hrfcid]; exact hsomene)
      have hpf : ((writtenRow e' r).contentfulId == some c) = false :=
        cid_beq_false hsomene
      constructor
      · rw [if_pos h, hpf, hpr]
      · intro hx
        rw [hpr] at hx
        exact Bool.noConfusion hx
    · rw [if_neg h]
      exact ⟨rfl, fun _ => rfl⟩
  | none =>
    show findByCid c (saveRow e' s).rows = findByCid c s.rows
    rw [saveRow_eq, findByCid, findByCid]
    show (s.rows ++ [newRow e' s.nextId]).find?
      (fun r => r.contentfulId == some c) = _
    rw [List.find?_append]
    have hnewcid : ((newRow e' s.nextId).contentfulId == some c) = false :=
      cid_beq_false hsomene
    have hnew : (([newRow e' s.nextId] : List ProductEntity).find?
        (fun r => r.contentfulId == some c)) = none := by
      simp [List.find?, hnewcid]
    rw [hnew, Option.or_none]

theorem syncStore_preserves_findByCid (c : List Char) (es : List EntityData)
    (hnc : ∀ e' ∈ es, e'.contentfulId ≠ c) :
    ∀ s : Store, WF s →
      findByCid c (syncStore es s).rows = findByCid c s.rows := by
  induction es with
  | nil => intro s _; rfl
  | cons e' es ih =>
    intro s hwf
    rw [syncStore_cons]
    rw [ih (fun x hx => hnc x (List.mem_cons_of_mem e' hx))
      (upsert e' s) (wf_upsert e' s hwf)]
    exact upsert_preserves_findByCid c e' s hwf
      (hnc e' (List.mem_cons_self e' es))

theorem find?_updateRow_first (c : List Char) (e : EntityData)
    (hec : e.contentfulId = c) :
    ∀ (rows : List ProductEntity) (r0 : ProductEntity),
      rows.find? (fun r => r.contentfulId == some c) = some r0 →
      (rows.map (fun r => r.id)).Nodup →
      (updateRow r0.id e rows).find? (fun r => r.contentfulId == some c) =
        some (writtenRow e r0) := by
  intro rows
  induction rows with
  | nil => intro r0 hfind _; exact absurd hfind (by simp)
  | cons r t ih =>
    intro r0 hfind hnodup
    rw [updateRow_eq, List.map_cons]
    rw [List.find?_cons] at hfind
    cases hp : ((r.contentfulId == some c) : Bool) with
    | true =>
      rw [hp] at hfind
      have hr0 : r = r0 := by
        injection hfind with h
      subst hr0
      rw [if_pos rfl, List.find?_cons]
      have hwc : ((writtenRow e r).contentfulId == some c) = true :=
        cid_beq_true (by rw [writtenRow, hec])
      rw [hwc]
    | false =>
      rw [hp] at hfind
      have hr0mem : r0 ∈ t := List.mem_of_find?_eq_some hfind
      have hrne : r.id ≠ r0.id := by
        rw [List.map_cons, List.nodup_cons] at hnodup
        intro hx
        exact hnodup.1 (hx ▸ List.mem_map.mpr ⟨r0, hr0mem, rfl⟩)
      rw [if_neg hrne, List.find?_cons, hp]
      have := ih r0 hfind (by
        rw [List.map_cons, List.nodup_cons] at hnodup
        exact hnodup.2)
      rw [updateRow_eq] at this
      exact this

theorem upsert_find_self (e : EntityData) (s : Store) (hwf : WF s) :
    ∃ r, findByCid e.contentfulId (upsert e s).rows = some r ∧
      r.name = e.name ∧ r.category = e.category ∧ r.price = e.price ∧
      r.contentfulId = some e.contentfulId := by
  rw [upsert]
  cases hfind : findByCid e.contentfulId s.rows with
  | some r0 =>
    refine ⟨writtenRow e r0, ?_, rfl, rfl, rfl, rfl⟩
    show findByCid e.contentfulId (updateRow r0.id e s.rows) = _
    exact find?_updateRow_first e.contentfulId e rfl s.rows r0 hfind hwf.1
  | none =>
    refine ⟨newRow e s.nextId, ?_, rfl, rfl, rfl, rfl⟩
    show findByCid e.contentfulId (saveRow e s).rows = _
    rw [saveRow_eq, findByCid]
    show (s.rows ++ [newRow e s.nextId]).find?
      (fun r => r.contentfulId == some e.contentfulId) = _
    rw [List.find?_append]
    have hfind2 : s.rows.find?
        (fun r => r.contentfulId == some e.contentfulId) = none := hfind
    rw [hfind2]
    have hnewcid : ((newRow e s.nextId).contentfulId ==
        some e.contentfulId) = true := cid_beq_true rfl
    simp [List.find?, hnewcid]

theorem upsert_noop (e : EntityData) (s : Store) (hwf : WF s)
    (r : ProductEntity)
    (hfind : findByCid e.contentfulId s.rows = some r)
    (hname : r.name = e.name) (hcat : r.category = e.category)
    (hprice : r.price = e.price)
    (hcid : r.contentfulId = some e.contentfulId) :
    upsert e s = s := by
  rw [upsert, hfind]
  have hrmem : r ∈ s.rows := List.mem_of_find?_eq_some hfind
  have hrows : updateRow r.id e s.rows = s.rows := by
    rw [updateRow_eq]
    have hpt : ∀ r' ∈ s.rows,
        (if r'.id = r.id then writtenRow e r' else r') = id r' := by
      intro r' hr'
      by_cases h : r'.id = r.id
      · rw [if_pos h]
        have hr'eq : r' = r := List.inj_on_of_nodup_map hwf.1 hr' hrmem h
        subst hr'eq
        show writtenRow e r' = r'
        cases r' with
        | mk idf namef catf pricef cidf delf =>
          rw [writtenRow]
          simp only at hname hcat hprice hcid
          rw [hname, hcat, hprice, hcid]
      · rw [if_neg h]
        rfl
    rw [List.map_congr_left hpt, List.map_id]
  show { s with rows := updateRow r.id e s.rows } = s
  rw [hrows]

/-- Two row lists that agree everywhere except possibly in the overwritten
columns of the first row carrying external identifier `c` (same primary
key, same identifier, same soft-delete marker there; every earlier row does
not carry `c` and is shared). -/
inductive RowsSim (c : List Char) : List ProductEntity → List ProductEntity → Prop
  | head (r1 r2 : ProductEntity) (rest : List ProductEntity)
      (hid : r1.id = r2.id) (hc1 : r1.contentfulId = some c)
      (hc2 : r2.contentfulId = some c) (hdel : r1.deletedAt = r2.deletedAt) :
      RowsSim c (r1 :: rest) (r2 :: rest)
  | cons (r : ProductEntity) (t1 t2 : List ProductEntity)
      (hne : r.contentfulId ≠ some c) (hsim : RowsSim c t1 t2) :
      RowsSim c (r :: t1) (r :: t2)

theorem rowsSim_ids {c : List Char} {l1 l2 : List ProductEntity}
    (h : RowsSim c l1 l2) :
    l1.map (fun r => r.id) = l2.map (fun r => r.id) := by
  induction h with
  | head r1 r2 rest hid _ _ _ => simp [hid]
  | cons r t1 t2 _ _ ih => simp [ih]

theorem rowsSim_find_ne {c : List Char} {l1 l2 : List ProductEntity}
    (h : RowsSim c l1 l2) (c' : List Char) (hcc : c' ≠ c) :
    findByCid c' l1 = findByCid c' l2 := by
  induction h with
  | head r1 r2 rest hid hc1 hc2 hdel =>
    rw [findByCid, findByCid, List.find?_cons, List.find?_cons]
    have hp1 : (r1.contentfulId == some c') = false :=
      cid_beq_false (by rw [hc1]; intro hx; exact hcc (Option.some.inj hx).symm)
    have hp2 : (r2.contentfulId == some c') = false :=
      cid_beq_false (by rw [hc2]; intro hx; exact hcc (Option.some.inj hx).symm)
    rw [hp1, hp2]
  | cons r t1 t2 hne hsim ih =>
    rw [findByCid, findByCid, List.find?_cons, List.find?_cons]
    cases hp : ((r.contentfulId == some c') : Bool) with
    | true => rfl
    | false => exact ih

theorem rowsSim_append {c : List Char} {l1 l2 : List ProductEntity}
    (h : RowsSim c l1 l2) (nr : ProductEntity) :
    RowsSim c (l1 ++ [nr]) (l2 ++ [nr]) := by
  induction h with
  | head r1 r2 rest hid hc1 hc2 hdel =>
    exact RowsSim.head r1 r2 (rest ++ [nr]) hid hc1 hc2 hdel
  | cons r t1 t2 hne _ ih =>
    exact RowsSim.cons r _ _ hne ih

theorem rowsSim_found_update {c : List Char} {l1 l2 : List ProductEntity}
    (h : RowsSim c l1 l2) :
    ∃ r1 r2, findByCid c l1 = some r1 ∧ findByCid c l2 = some r2 ∧
      r1.id = r2.id ∧ r1.deletedAt = r2.deletedAt ∧
      ∀ e' : EntityData, updateRow r1.id e' l1 = updateRow r2.id e' l2 := by
  induction h with
  | head r1 r2 rest hid hc1 hc2 hdel =>
    refine ⟨r1, r2, ?_, ?_, hid, hdel, ?_⟩
    · rw [findByCid, List.find?_cons, cid_beq_true hc1]
    · rw [findByCid, List.find?_cons, cid_beq_true hc2]
    · intro e'
      rw [updateRow_eq, updateRow_eq, List.map_cons, List.map_cons,
        if_pos rfl, if_pos rfl]
      congr 1
      · rw [writtenRow, writtenRow]
        cases r1 with
        | mk id1 n1 c1 p1 ci1 d1 =>
          cases r2 with
          | mk id2 n2 c2 p2 ci2 d2 =>
            simp only at hid hdel
            rw [hid, hdel]
      · rw [hid]
  | cons r t1 t2 hne hsim ih =>
    rcases ih with ⟨r1, r2, hf1, hf2, hid, hdel, hupd⟩
    refine ⟨r1, r2, ?_, ?_, hid, hdel, ?_⟩
    · rw [findByCid, List.find?_cons, cid_beq_false hne]
      exact hf1
    · rw [findByCid, List.find?_cons, cid_beq_false hne]
      exact hf2
    · intro e'
      rw [updateRow_eq, updateRow_eq, List.map_cons, List.map_cons]
      have ht := hupd e'
      rw [updateRow_eq, updateRow_eq] at ht
      rw [ht, hid]

theorem rowsSim_updateRow_other {c : List Char} {l1 l2 : List ProductEntity}
    (h : RowsSim c l1 l2) (id0 : Nat) (e' : EntityData)
    (hce : e'.contentfulId ≠ c)
    (hnot : ∀ r ∈ l1, r.id = id0 → r.contentfulId ≠ some c) :
    RowsSim c (updateRow id0 e' l1) (updateRow id0 e' l2) := by
  induction h with
  | head r1 r2 rest hid hc1 hc2 hdel =>
    have h1 : r1.id ≠ id0 := fun hx =>
      hnot r1 (List.mem_cons_self r1 rest) hx hc1
    have h2 : r2.id ≠ id0 := by rw [← hid]; exact h1
    rw [updateRow_eq, updateRow_eq, List.map_cons, List.map_cons,
      if_neg h1, if_neg h2]
    have hrest : rest.map (fun r => if r.id = id0 then writtenRow e' r else r) =
        rest.map (fun r => if r.id = id0 then writtenRow e' r else r) := rfl
    exact RowsSim.head r1 r2 _ hid hc1 hc2 hdel
  | cons r t1 t2 hne hsim ih =>
    rw [updateRow_eq, updateRow_eq, List.map_cons, List.map_cons]
    by_cases hr : r.id = id0
    · rw [if_pos hr]
      refine RowsSim.cons _ _ _ ?_ (by
        have := ih (fun x hx hxid => hnot x (List.mem_cons_of_mem r hx) hxid)
        rw [updateRow_eq, updateRow_eq] at this
        exact this)
      rw [writtenRow]
      intro hx
      simp only at hx
      exact hce (Option.some.inj hx)
    · rw [if_neg hr]
      refine RowsSim.cons _ _ _ hne (by
        have := ih (fun x hx hxid => hnot x (List.mem_cons_of_mem r hx) hxid)
        rw [updateRow_eq, updateRow_eq] at this
        exact this)

theorem rowsSim_self_update (c : List Char) (e : EntityData)
    (hec : e.contentfulId = c) :
    ∀ (rows : List ProductEntity) (r0 : ProductEntity),
      rows.find? (fun r => r.contentfulId == some c) = some r0 →
      (rows.map (fun r => r.id)).Nodup →
      RowsSim c rows (updateRow r0.id e rows) := by
  intro rows
  induction rows with
  | nil => intro r0 hfind _; exact absurd hfind (by simp)
  | cons r t ih =>
    intro r0 hfind hnodup
    rw [List.find?_cons] at hfind
    rw [updateRow_eq, List.map_cons]
    cases hp : ((r.contentfulId == some c) : Bool) with
    | true =>
      rw [hp] at hfind
      have hr0 : r = r0 := by injection hfind with h
      subst hr0
      rw [if_pos rfl]
      have hmap : t.map (fun r' => if r'.id = r.id then writtenRow e r' else r') =
          t.map id := by
        apply List.map_congr_left
        intro r' hr'
        have hne : r'.id ≠ r.id := by
          rw [List.map_cons, List.nodup_cons] at hnodup
          intro hx
          exact hnodup.1 (hx ▸ List.mem_map.mpr ⟨r', hr', rfl⟩)
        rw [if_neg hne]
        rfl
      rw [hmap, List.map_id]
      exact RowsSim.head r (writtenRow e r) t rfl (eq_of_beq hp)
        (by rw [writtenRow]; simp only; rw [hec]) rfl
    | false =>
      rw [hp] at hfind
      have hr0mem : r0 ∈ t := List.mem_of_find?_eq_some hfind
      have hrne : r.id ≠ r0.id := by
        rw [List.map_cons, List.nodup_cons] at hnodup
        intro hx
        exact hnodup.1 (hx ▸ List.mem_map.mpr ⟨r0, hr0mem, rfl⟩)
      rw [if_neg hrne]
      have hsimt := ih r0 hfind (by
        rw [List.map_cons, List.nodup_cons] at hnodup
        exact hnodup.2)
      rw [updateRow_eq] at hsimt
      refine RowsSim.cons r _ _ ?_ hsimt
      intro hx
      rw [cid_beq_true hx] at hp
      exact Bool.noConfusion hp

theorem cid_present_upsert (c : List Char) (e' : EntityData) (s : Store)
    (hwf : WF s) (h : ∃ r ∈ s.rows, r.contentfulId = some c) :
    ∃ r ∈ (upsert e' s).rows, r.contentfulId = some c := by
  rcases h with ⟨r, hr, hrc⟩
  rw [upsert]
  cases hfind : findByCid e'.contentfulId s.rows with
  | some rf =>
    have hfind2 : s.rows.find?
        (fun x => x.contentfulId == some e'.contentfulId) = some rf := hfind
    have hrfmem : rf ∈ s.rows := List.mem_of_find?_eq_some hfind2
    have hrfcid : rf.contentfulId = some e'.contentfulId :=
      eq_of_beq (@List.find?_some ProductEntity
        (fun x => x.contentfulId == some e'.contentfulId) rf s.rows hfind2)
    show ∃ x ∈ updateRow rf.id e' s.rows, x.contentfulId = some c
    rw [updateRow_eq]
    by_cases hid : r.id = rf.id
    · have hreq : r = rf := List.inj_on_of_nodup_map hwf.1 hr hrfmem hid
      have hcc : some e'.contentfulId = some c := by
        rw [← hrfcid, ← hreq, hrc]
      refine ⟨writtenRow e' r, List.mem_map.mpr ⟨r, hr, by rw [if_pos hid]⟩, ?_⟩
      rw [writtenRow]
      exact hcc
    · exact ⟨r, List.mem_map.mpr ⟨r, hr, by rw [if_neg hid]⟩, hrc⟩
  | none =>
    show ∃ x ∈ (saveRow e' s).rows, x.contentfulId = some c
    rw [saveRow_eq]
    exact ⟨r, List.mem_append.mpr (Or.inl hr), hrc⟩

theorem cid_present_sync (c : List Char) (es : List EntityData) :
    ∀ s : Store, WF s → (∃ r ∈ s.rows, r.contentfulId = some c) →
      ∃ r ∈ (syncStore es s).rows, r.contentfulId = some c := by
  induction es with
  | nil => intro s _ h; exact h
  | cons e' es ih =>
    intro s hwf h
    rw [syncStore_cons]
    exact ih (upsert e' s) (wf_upsert e' s hwf)
      (cid_present_upsert c e' s hwf h)

theorem sync_sim (c : List Char) (es : List EntityData) :
    ∀ s1 s2 : Store, RowsSim c s1.rows s2.rows → s1.nextId = s2.nextId →
      WF s1 → (∃ x ∈ es, x.contentfulId = c) →
      syncStore es s1 = syncStore es s2 := by
  induction es with
  | nil =>
    rintro s1 s2 _ _ _ ⟨x, hx, _⟩
    exact absurd hx (List.not_mem_nil x)
  | cons e' es ih =>
    rintro s1 s2 hsim hnext hwf hex
    rw [syncStore_cons, syncStore_cons]
    by_cases hc : e'.contentfulId = c
    · obtain ⟨r1, r2, hf1, hf2, hid, hdel, hupd⟩ := rowsSim_found_update hsim
      have heq : upsert e' s1 = upsert e' s2 := by
        rw [upsert, upsert, hc, hf1, hf2]
        have hrows := hupd e'
        cases s1 with
        | mk n1 rows1 =>
          cases s2 with
          | mk n2 rows2 =>
            simp only at hnext hrows ⊢
            rw [hnext, hrows]
      rw [heq]
    · have hfind := rowsSim_find_ne hsim e'.contentfulId hc
      have hex' : ∃ x ∈ es, x.contentfulId = c := by
        rcases hex with ⟨x, hx, hxc⟩
        rcases List.mem_cons.mp hx with h | h
        · exact absurd (h ▸ hxc) hc
        · exact ⟨x, h, hxc⟩
      cases hf : findByCid e'.contentfulId s1.rows with
      | some rf =>
        have hf2 : findByCid e'.contentfulId s2.rows = some rf :=
          hfind.symm.trans hf
        have hffind : s1.rows.find?
            (fun x => x.contentfulId == some e'.contentfulId) = some rf := hf
        have hrfmem : rf ∈ s1.rows := List.mem_of_find?_eq_some hffind
        have hrfcid : rf.contentfulId = some e'.contentfulId :=
          eq_of_beq (@List.find?_some ProductEntity
            (fun x => x.contentfulId == some e'.contentfulId) rf s1.rows hffind)
        have hnot : ∀ r ∈ s1.rows, r.id = rf.id → r.contentfulId ≠ some c := by
          intro r hr hrid
          have : r = rf := List.inj_on_of_nodup_map hwf.1 hr hrfmem hrid
          rw [this, hrfcid]
          intro hx
          exact hc (Option.some.inj hx)
        have hsim2 : RowsSim c (upsert e' s1).rows (upsert e' s2).rows := by
          rw [upsert, upsert, hf, hf2]
          exact rowsSim_updateRow_other hsim rf.id e' hc hnot
        have hnext2 : (upsert e' s1).nextId = (upsert e' s2).nextId := by
          rw [upsert, upsert, hf, hf2]
          exact hnext
        exact ih (upsert e' s1) (upsert e' s2) hsim2 hnext2
          (wf_upsert e' s1 hwf) hex'
      | none =>
        have hf2 : findByCid e'.contentfulId s2.rows = none :=
          hfind.symm.trans hf
        have hsim2 : RowsSim c (upsert e' s1).rows (upsert e' s2).rows := by
          rw [upsert, upsert, hf, hf2, saveRow_eq, saveRow_eq]
          show RowsSim c (s1.rows ++ [newRow e' s1.nextId])
            (s2.rows ++ [newRow e' s2.nextId])
          rw [← hnext]
          exact rowsSim_append hsim (newRow e' s1.nextId)
        have hnext2 : (upsert e' s1).nextId = (upsert e' s2).nextId := by
          rw [upsert, upsert, hf, hf2, saveRow_eq, saveRow_eq]
          show s1.nextId + 1 = s2.nextId + 1
          rw [hnext]
        exact ih (upsert e' s1) (upsert e' s2) hsim2 hnext2
          (wf_upsert e' s1 hwf) hex'


theorem syncStore_idem_aux (es : List EntityData) :
    ∀ s : Store, WF s →
      syncStore es (syncStore es s) = syncStore es s := by
  induction es with
  | nil => intro s _; rfl
  | cons e es ih =>
    intro s hwf
    have hwfu : WF (upsert e s) := wf_upsert e s hwf
    rw [syncStore_cons e es s, syncStore_cons e es (syncStore es (upsert e s))]
    set T := syncStore es (upsert e s) with hT
    have hwft : WF T := wf_syncStore es _ hwfu
    by_cases hcase : ∃ x ∈ es, x.contentfulId = e.contentfulId
    · obtain ⟨rs, hrs, hrsc⟩ : ∃ r ∈ T.rows,
          r.contentfulId = some e.contentfulId := by
        rw [hT]
        apply cid_present_sync e.contentfulId es (upsert e s) hwfu
        obtain ⟨r, hfr, _, _, _, hrc⟩ := upsert_find_self e s hwf
        exact ⟨r, List.mem_of_find?_eq_some hfr, hrc⟩
      have hfsome : (T.rows.find?
          (fun r => r.contentfulId == some e.contentfulId)).isSome := by
        rw [List.find?_isSome]
        exact ⟨rs, hrs, cid_beq_true hrsc⟩
      obtain ⟨r0, hr0⟩ := Option.isSome_iff_exists.mp hfsome
      have hfind0 : findByCid e.contentfulId T.rows = some r0 := hr0
      have hup : upsert e T = { T with rows := updateRow r0.id e T.rows } := by
        rw [upsert, hfind0]
      have hsim : RowsSim e.contentfulId T.rows (upsert e T).rows := by
        rw [hup]
        exact rowsSim_self_update e.contentfulId e rfl _ r0 hr0 hwft.1
      have hnext : T.nextId = (upsert e T).nextId := by
        rw [hup]
      have hstep := sync_sim e.contentfulId es T (upsert e T) hsim hnext
        hwft hcase
      rw [← hstep, hT, ih (upsert e s) hwfu]
    · push_neg at hcase
      obtain ⟨r, hfr, hrn, hrc, hrp, hrcid⟩ := upsert_find_self e s hwf
      have hfr2 : findByCid e.contentfulId T.rows = some r := by
        rw [hT, syncStore_preserves_findByCid e.contentfulId es hcase
          (upsert e s) hwfu]
        exact hfr
      rw [upsert_noop e T hwft r hfr2 hrn hrc hrp hrcid, hT,
        ih (upsert e s) hwfu]

/-- C5: the sync upsert loop is idempotent on a well-formed store (unique
primary keys, fresh id generator): running the upsert pass twice over the
same input list yields exactly the same final store as running it once.
Moreover no duplicate is created for an already-present external
identifier: upserting a record whose identifier some row (soft-deleted or
not) already carries updates in place, preserving the row count and every
primary key. -/
theorem syncStore_idempotent (es : List EntityData) (s : Store)
    (hwf : WF s) :
    syncStore es (syncStore es s) = syncStore es s ∧
    ∀ e : EntityData,
      (∃ r ∈ s.rows, r.contentfulId = some e.contentfulId) →
      (upsert e s).rows.map (fun r => r.id) = s.rows.map (fun r => r.id) ∧
      (upsert e s).rows.length = s.rows.length := by
  refine ⟨syncStore_idem_aux es s hwf, ?_⟩
  intro e hex
  have hfsome : (s.rows.find?
      (fun r => r.contentfulId == some e.contentfulId)).isSome := by
    rw [List.find?_isSome]
    rcases hex with ⟨r, hr, hrc⟩
    exact ⟨r, hr, cid_beq_true hrc⟩
  obtain ⟨r0, hr0⟩ := Option.isSome_iff_exists.mp hfsome
  have hfind0 : findByCid e.contentfulId s.rows = some r0 := hr0
  have hup : upsert e s = { s with rows := updateRow r0.id e s.rows } := by
    rw [upsert, hfind0]
  constructor
  · rw [hup]
    exact updateRow_id_map r0.id e s.rows
  · rw [hup]
    show (updateRow r0.id e s.rows).length = s.rows.length
    rw [updateRow_eq, List.length_map]

/-- The spec's worked sync example: external record with source-id `"x1"`
already present locally as a soft-deleted row. -/
def entX1 : EntityData :=
  { name := ['n'], category := ['c'], price := 7, contentfulId := ['x', '1'] }

/-- A well-formed store holding one soft-deleted row with source-id
`"x1"`. -/
def storeX1 : Store :=
  { nextId := 1
    rows := [{ id := 0, name := ['o'], category := ['d'], price := 5
               contentfulId := some ['x', '1'], deletedAt := some 3 }] }

theorem syncStore_idempotent_witness :
    (syncStore [entX1] (syncStore [entX1] storeX1) =
        syncStore [entX1] storeX1 ∧
      ∀ e : EntityData,
        (∃ r ∈ storeX1.rows, r.contentfulId = some e.contentfulId) →
        (upsert e storeX1).rows.map (fun r => r.id) =
          storeX1.rows.map (fun r => r.id) ∧
        (upsert e storeX1).rows.length = storeX1.rows.length) :=
  syncStore_idempotent [entX1] storeX1 (by decide)

/-- The outcome of handling one fetched item: either the adapter mapping
and the repository call succeed with the mapped entity, or one of them
throws (`ContentfulAdapter.toProductEntity`, `findOne`, `update` or
`save`). -/
inductive ItemOutcome where
  | ok (e : EntityData)
  | fail
deriving DecidableEq, Repr

/-- One iteration of the `for` loop body: an `ok` item is upserted, a
failing item throws. -/
def processItem : ItemOutcome → Store → Except Unit Store
  | .ok e, s => .ok (upsert e s)
  | .fail, _ => .error ()

/-- The `for` loop inside the single `try` block of `fetchFromContentful`
(lines 112–124): it runs until the first thrown error; the error aborts the
loop and is caught at the function boundary (the boolean records that the
`catch` logged it). -/
def syncLoop : List ItemOutcome → Store → Store × Bool
  | [], s => (s, false)
  | it :: rest, s =>
    match processItem it s with
    | .ok s2 => syncLoop rest s2
    | .error _ => (s, true)

/-- The total outcome of `invalidateCache` (its `try/catch` swallows every
error): the reached cache state and whether the warning fired. -/
def invalidateCacheRun (ops : CacheOps) (c : CacheState) :
    CacheState × Bool :=
  match invalidateBody ops c with
  | .ok c2 => (c2, false)
  | .error (_, c2) => (c2, true)

theorem invalidateCacheTry_eq_run (ops : CacheOps) (c : CacheState) :
    invalidateCacheTry ops c = .ok (invalidateCacheRun ops c) := by
  rw [invalidateCacheTry, invalidateCacheRun]
  cases hb : invalidateBody ops c with
  | error p => cases p; rfl
  | ok c2 => rfl

/-- `fetchFromContentful` (lines 99–131) after the items were fetched: run
the loop; on success invalidate the product cache and return normally; on
any thrown error the `catch` logs it and returns without invalidating. -/
def fetchFromContentful (ops : CacheOps) (items : List ItemOutcome)
    (s : Store) (c : CacheState) : Store × CacheState × Bool :=
  let r := syncLoop items s
  if r.2 then (r.1, c, true)
  else (r.1, (invalidateCacheRun ops c).1, false)

theorem syncLoop_all_ok (es : List EntityData) :
    ∀ s : Store, syncLoop (es.map ItemOutcome.ok) s = (syncStore es s, false) := by
  induction es with
  | nil => intro s; rfl
  | cons e es ih =>
    intro s
    rw [List.map_cons, syncLoop, processItem]
    exact ih (upsert e s)

theorem syncLoop_fail_at (pre : List EntityData) (post : List ItemOutcome) :
    ∀ s : Store,
      syncLoop (pre.map ItemOutcome.ok ++ ItemOutcome.fail :: post) s =
        (syncStore pre s, true) := by
  induction pre with
  | nil => intro s; rfl
  | cons e pre ih =>
    intro s
    rw [List.map_cons, List.cons_append, syncLoop, processItem]
    exact ih (upsert e s)

/-- An empty products table. -/
def emptyStore : Store := { nextId := 0, rows := [] }

/-- C3, as stated, fails on the code: the single `try/catch` wraps the
whole loop, so the first record throwing aborts the batch.  Concretely,
for the item list [failing record, record mapping to `entX1`] on an empty
store, the job returns with the store still empty — the record after the
failing one was never attempted, although upserting it alone would have
inserted a row. -/
theorem fetch_abort_counterexample :
    fetchFromContentful honestOps [ItemOutcome.fail, ItemOutcome.ok entX1]
        emptyStore [] = (emptyStore, [], true) ∧
    (upsert entX1 emptyStore).rows ≠ emptyStore.rows :=
  ⟨rfl, by decide⟩

/-- C3 amended: a failure mapping or persisting one record does not escape
the job — the error is caught at the batch boundary and logged (the job
returns normally) — but it aborts the remaining records: the final store
reflects exactly the successfully processed prefix, every record after the
failing one is left unattempted, and cache invalidation is skipped. -/
theorem fetch_abort_on_failure (ops : CacheOps) (pre : List EntityData)
    (post : List ItemOutcome) (s : Store) (c : CacheState) :
    fetchFromContentful ops
        (pre.map ItemOutcome.ok ++ ItemOutcome.fail :: post) s c =
      (syncStore pre s, c, true) := by
  unfold fetchFromContentful
  rw [syncLoop_fail_at]
  rfl

/-- C4, as stated, fails on the code: on partial success — the first
record persisted, the second threw — the job returns with the cache
untouched: the pre-existing `products_` page is still readable, although
the store did change. -/
theorem fetch_partial_no_invalidation_counterexample :
    fetchFromContentful honestOps [ItemOutcome.ok entX1, ItemOutcome.fail]
        emptyStore [(sampleKey, sampleResult)] =
      (upsert entX1 emptyStore, [(sampleKey, sampleResult)], true) ∧
    (upsert entX1 emptyStore).rows ≠ emptyStore.rows ∧
    cacheGet sampleKey [(sampleKey, sampleResult)] = some sampleResult :=
  ⟨rfl, by decide, by decide⟩

/-- C4 amended: cache invalidation for the product namespace is triggered
before the job returns exactly when every record was processed
successfully; when any record fails, the job returns with the cache as it
was (no invalidation). -/
theorem fetch_invalidates_iff_full_success (ops : CacheOps)
    (es pre : List EntityData) (post : List ItemOutcome) (s : Store)
    (c : CacheState) :
    fetchFromContentful ops (es.map ItemOutcome.ok) s c =
      (syncStore es s, (invalidateCacheRun ops c).1, false) ∧
    (fetchFromContentful ops
        (pre.map ItemOutcome.ok ++ ItemOutcome.fail :: post) s c).2.1 = c := by
  constructor
  · unfold fetchFromContentful
    rw [syncLoop_all_ok]
    rfl
  · unfold fetchFromContentful
    rw [syncLoop_fail_at]
    rfl
